import Mathlib

/-!
Verification of the ns3-exp repository's discrete-event scheduling core and
of `TupleValue::DeserializeFromString` (src/src/core/model/tuple.h).

The attribute-tuple deserialization code is embedded directly from
src/src/core/model/tuple.h.  The scheduler/simulator core itself
(Simulator, EventQueue, VirtualClock) is not among the repository's source
files — only callers such as src/src/stats/examples/gnuplot-helper-example.cc
appear — so the scheduler is modelled from spec.md (sections 3–5).
-/

namespace NS3

/-! ## Embedding of TupleValue::DeserializeFromString (src/src/core/model/tuple.h)

`TupleValue<Args...>` stores `m_value`, a tuple of attribute values; we model
it as a list over an abstract attribute-value type `AV` (one entry per `Args`
position).  An `AttributeChecker` is either a `TupleChecker` carrying one
per-element checker (`CreateValidValue`, modelled as `String → Option AV`)
or some other checker (the failing `DynamicCast<const TupleChecker>` case).
`DynamicCast<Args>(values[Is])` of `SetValueImpl` is modelled as a
per-position cast function `AV → Option AV` (one per `Args`). -/

/-- The stored state of a `TupleValue` object: its `m_value` member. -/
structure TupleValueModel (AV : Type) where
  m_value : List AV
deriving DecidableEq

/-- An `AttributeChecker` as seen by `DeserializeFromString`: either a
`TupleChecker` (with its element checkers) or an unrelated checker. -/
inductive CheckerModel (AV : Type) where
  | tupleChecker (checkers : List (String → Option AV))
  | otherChecker

/-- Whitespace characters skipped by `std::ws` (C locale). -/
def isCppWs (c : Char) : Bool :=
  c = ' ' || c = '\t' || c = '\n' || c = '\x0b' || c = '\x0c' || c = '\r'

/-- The per-element cleanup in the loop body of `DeserializeFromString`:
`std::getline(tmp >> std::ws, value)` skips leading whitespace and then
reads up to the next newline. -/
def cleanElem (s : String) : String :=
  (s.dropWhile isCppWs).takeWhile (fun c => c ≠ '\n')

/-- The element split performed by `for (std::string elem; std::getline(iss, elem, ',');)`:
`getline` fails (without producing an element) exactly when the stream is
already at end-of-file, so a trailing comma does not produce a final empty
element, while an empty input produces no elements at all. -/
def getlineSplit (s : String) : List String :=
  if s.isEmpty then []
  else
    let parts := s.splitOn ","
    if s.endsWith "," then parts.dropLast else parts

/-- The element loop of `DeserializeFromString`: checks `i >= count`
before each element, applies `GetCheckers().at(i)->CreateValidValue` to the
cleaned element, pushes the result, and fails if the result is null.
Returns the final element count `i` and the collected values. -/
def collectValues {AV : Type} (checkers : List (String → Option AV)) :
    List String → Nat → Option (Nat × List AV)
  | [], i => some (i, [])
  | e :: rest, i =>
    if checkers.length ≤ i then none
    else
      match (checkers.getD i (fun _ => none)) (cleanElem e) with
      | none => none
      | some v =>
        match collectValues checkers rest (i + 1) with
        | none => none
        | some (j, vs) => some (j, v :: vs)

/-- The fold `((std::get<Is>(valueTuple) != nullptr) && ...)` of
`SetValueImpl` together with the per-position `DynamicCast<Args>`:
all casts must succeed. -/
def castAll {AV : Type} : List (AV → Option AV) → List AV → Option (List AV)
  | [], _ => some []
  | c :: cs, v :: vs =>
    match c v, castAll cs vs with
    | some w, some ws => some (w :: ws)
    | _, _ => none
  | _ :: _, [] => none

/-- `TupleValue::SetValueImpl` (src/src/core/model/tuple.h, lines 244–259):
dynamic-casts each collected value; if all casts succeed (`ok`), replaces
`m_value` and returns true, otherwise leaves `m_value` untouched and
returns false. -/
def SetValueImpl {AV : Type} (casts : List (AV → Option AV))
    (tv : TupleValueModel AV) (values : List AV) : Bool × TupleValueModel AV :=
  match castAll casts values with
  | some ws => (true, ⟨ws⟩)
  | none => (false, tv)

/-- `TupleValue::DeserializeFromString` (src/src/core/model/tuple.h,
lines 261–312).  `casts` plays the role of the `Args...` template pack:
its length is `sizeof...(Args)` and its entries are the per-position
`DynamicCast<Args>` used by `SetValueImpl`. -/
def DeserializeFromString {AV : Type} (casts : List (AV → Option AV))
    (tv : TupleValueModel AV) (value : String) (checker : CheckerModel AV) :
    Bool × TupleValueModel AV :=
  match checker with
  | .otherChecker => (false, tv)
  | .tupleChecker checkers =>
    if checkers.length ≠ casts.length then (false, tv)
    else if value.isEmpty || value.front ≠ '{' || value.back ≠ '}' then (false, tv)
    else
      match collectValues checkers (getlineSplit ((value.drop 1).dropRight 1)) 0 with
      | none => (false, tv)
      | some (i, values) =>
        if i ≠ checkers.length then (false, tv)
        else SetValueImpl casts tv values

/-! ## The discrete-event scheduler core, modelled from spec.md

The Simulator / EventQueue / VirtualClock sources are not part of this
repository snapshot; every definition below is therefore modelled from the
spec (sections 3–5, 4.1–4.5), as its doc comment records. -/

/-- Modelled from the spec: the error taxonomy of section 7 for the missing
scheduler sources — `InvalidDelay` (negative delay), `Overflow`
(virtual-time arithmetic out of range) and `NotRunnable` (scheduling after
`Destroy()`). -/
inductive SimError where
  | InvalidDelay
  | Overflow
  | NotRunnable
deriving DecidableEq

/-- Modelled from the spec: smallest representable 64-bit signed tick count
of the missing `VirtualClock` component (section 3). -/
def INT64_MIN : Int := -9223372036854775808

/-- Modelled from the spec: largest representable 64-bit signed tick count
of the missing `VirtualClock` component (section 3). -/
def INT64_MAX : Int := 9223372036854775807

/-- Modelled from the spec: whether a mathematical tick value lies in the
representable range of the missing `VirtualClock` (a 64-bit signed integer
tick count, section 3). -/
def inRangeI64 (x : Int) : Bool :=
  decide (INT64_MIN ≤ x) && decide (x ≤ INT64_MAX)

/-- Modelled from the spec: `VirtualClock` addition of a duration
(section 4.1 of the missing scheduler sources); fails explicitly with
`Overflow` when the mathematical result exceeds the representable range,
never silently wrapping. -/
def clockAdd (a b : Int) : Except SimError Int :=
  if inRangeI64 (a + b) then .ok (a + b) else .error .Overflow

/-- Modelled from the spec: `VirtualClock` subtraction yielding a duration
(section 4.1 of the missing scheduler sources); fails explicitly with
`Overflow` when the mathematical result exceeds the representable range. -/
def clockSub (a b : Int) : Except SimError Int :=
  if inRangeI64 (a - b) then .ok (a - b) else .error .Overflow

/-- Modelled from the spec: the deferred callbacks bound into events of the
missing scheduler sources; the claims only observe marker callbacks and
the self-rescheduling callback of Scenario C, so those are the embedded
shapes.  `mark i` records marker `i` when invoked; `selfReschedule i d`
records marker `i` and schedules another copy of itself `d` ticks later. -/
inductive Action where
  | mark (i : Nat)
  | selfReschedule (i : Nat) (d : Int)
deriving DecidableEq

/-- The marker identifier carried by a callback. -/
def actionId : Action → Nat
  | .mark i => i
  | .selfReschedule i _ => i

/-- Modelled from the spec: an `Event` of the missing scheduler sources
(section 3) — absolute fire time, never-reused insertion sequence number,
owning context id, deferred callback, and cancellation flag. -/
structure Event where
  time : Int
  seq : Nat
  ctx : Nat
  action : Action
  cancelled : Bool
deriving DecidableEq

/-- Modelled from the spec: the state owned by the missing
Scheduler/Simulator core (section 4.5) — current virtual time, the next
insertion sequence number, the pending-event queue kept ordered by
(fire time, insertion sequence), the cleanup-event list in registration
order, stop requests, and the terminal `destroyed` flag.  `trace` records
each invoked callback as (marker, invocation-time `Now()`), `firedSeqs`
records the sequence numbers of events whose callbacks were invoked, and
`destroyLog` records markers of cleanup callbacks invoked by `Destroy()`. -/
structure SimState where
  now : Int
  nextSeq : Nat
  queue : List Event
  destroyQueue : List (Nat × Action)
  trace : List (Nat × Int)
  firedSeqs : List Nat
  destroyLog : List Nat
  stopFlag : Bool
  stopTime : Option Int
  destroyed : Bool
deriving DecidableEq

/-- Modelled from the spec: the freshly constructed simulator (section 9,
`init` = construction; virtual time starts at 0). -/
def initState : SimState :=
  { now := 0, nextSeq := 0, queue := [], destroyQueue := [], trace := [],
    firedSeqs := [], destroyLog := [], stopFlag := false, stopTime := none,
    destroyed := false }

/-- Modelled from the spec: `EventQueue.Insert` of the missing scheduler
sources (section 4.2) — ordered insertion by (fire time, insertion
sequence); a new event goes after every event with fire time ≤ its own
(its sequence number is the largest so far), before any later one. -/
def insertEvent (e : Event) : List Event → List Event
  | [] => [e]
  | x :: xs => if x.time ≤ e.time then x :: insertEvent e xs else e :: x :: xs

/-- Modelled from the spec: `ScheduleAt(context, delay, callback)` of the
missing scheduler sources (section 4.5) — fails with `NotRunnable` after
`Destroy()`, rejects negative delays with `InvalidDelay` (never clamping),
computes fire time = current virtual time + delay through `VirtualClock`
arithmetic, and inserts the event, returning its handle (the fresh,
never-reused sequence number). -/
def scheduleAt (ctx : Nat) (d : Int) (a : Action) (s : SimState) :
    Except SimError Nat × SimState :=
  if s.destroyed then (.error .NotRunnable, s)
  else if d < 0 then (.error .InvalidDelay, s)
  else
    match clockAdd s.now d with
    | .error err => (.error err, s)
    | .ok t =>
      (.ok s.nextSeq,
       { s with nextSeq := s.nextSeq + 1,
                queue := insertEvent ⟨t, s.nextSeq, ctx, a, false⟩ s.queue })

/-- Modelled from the spec: `ScheduleAfter(delay, callback)` of the missing
scheduler sources (section 4.5), scheduling in the ambient context. -/
def scheduleAfter (d : Int) (a : Action) (s : SimState) :
    Except SimError Nat × SimState :=
  scheduleAt 0 d a s

/-- Modelled from the spec: `ScheduleNow(callback)` of the missing scheduler
sources (section 4.5) — convenience for delay = 0; still enqueues behind
prior same-instant events by sequence order. -/
def scheduleNow (a : Action) (s : SimState) : Except SimError Nat × SimState :=
  scheduleAfter 0 a s

/-- Modelled from the spec: `ScheduleDestroy(callback)` of the missing
scheduler sources (section 4.5) — registers a cleanup event invoked only
during the teardown phase, in registration order; fails with `NotRunnable`
after `Destroy()`. -/
def scheduleDestroy (a : Action) (s : SimState) :
    Except SimError Nat × SimState :=
  if s.destroyed then (.error .NotRunnable, s)
  else
    (.ok s.nextSeq,
     { s with nextSeq := s.nextSeq + 1,
              destroyQueue := s.destroyQueue ++ [(s.nextSeq, a)] })

/-- Modelled from the spec: `Cancel(handle)` / `EventQueue.Remove(handle)`
of the missing scheduler sources (sections 4.2, 4.5) — marks a pending
event cancelled (idempotently); returns false if the event is no longer
pending (already fired). -/
def cancelMark (h : Nat) (e : Event) : Event :=
  if e.seq == h then { e with cancelled := true } else e

/-- Modelled from the spec: see `cancelMark` — the queue-level cancellation
entry point of the missing scheduler sources. -/
def cancel (h : Nat) (s : SimState) : Bool × SimState :=
  if s.queue.any (fun e => e.seq == h) then
    (true, { s with queue := s.queue.map (cancelMark h) })
  else (false, s)

/-- Modelled from the spec: `Stop()` of the missing scheduler sources
(section 4.5) — requests loop termination. -/
def stop (s : SimState) : SimState :=
  { s with stopFlag := true }

/-- Modelled from the spec: `StopAt(time)` of the missing scheduler sources
(section 4.5) — requests loop termination at a virtual-time bound. -/
def stopAt (t : Int) (s : SimState) : SimState :=
  { s with stopTime := some t }

/-- Modelled from the spec: invocation of a deferred callback by the run
loop (sections 4.5, 5) — records (marker, `Now()`) in the trace; the
self-rescheduling callback of Scenario C additionally schedules another
copy of itself, ignoring any scheduling error it receives. -/
def runAction (a : Action) (s : SimState) : SimState :=
  match a with
  | .mark i => { s with trace := s.trace ++ [(i, s.now)] }
  | .selfReschedule i d =>
    (scheduleAfter d (.selfReschedule i d)
      { s with trace := s.trace ++ [(i, s.now)] }).2

/-- Modelled from the spec: one iteration of the `Run()` loop of the missing
scheduler sources (section 4.5) — `none` means the loop exits (stop request,
empty queue, or next event beyond the `StopAt` bound).  Otherwise the
earliest event is popped and virtual time advances to its fire time; a
cancelled event is discarded without invocation (time still advances),
and a live event's sequence number is recorded and its callback invoked. -/
def stepExec (e : Event) (rest : List Event) (s : SimState) : SimState :=
  if e.cancelled then { s with now := e.time, queue := rest }
  else
    runAction e.action
      { s with now := e.time, queue := rest,
               firedSeqs := s.firedSeqs ++ [e.seq] }

/-- Modelled from the spec: the loop-exit test of `Run()` in the missing
scheduler sources (section 4.5) — `none` when a stop was requested, the
queue is empty, or the next event lies beyond the `StopAt` bound;
otherwise one `stepExec` iteration. -/
def step (s : SimState) : Option SimState :=
  if s.stopFlag then none
  else
    match s.queue with
    | [] => none
    | e :: rest =>
      match s.stopTime with
      | some tstop => if tstop < e.time then none else some (stepExec e rest s)
      | none => some (stepExec e rest s)

/-- Modelled from the spec: `Run()` of the missing scheduler sources
(section 4.5), embedded with explicit fuel — it iterates `step` until the
loop exits or the fuel runs out; claims about termination show a fixpoint
is reached within the stated fuel. -/
def run : Nat → SimState → SimState
  | 0, s => s
  | fuel + 1, s =>
    match step s with
    | none => s
    | some s' => run fuel s'

/-- Modelled from the spec: `Destroy()` of the missing scheduler sources
(section 4.5) — drains and invokes all cleanup events in registration
order, releases all remaining pending events without invoking them, and
transitions the engine to the terminal `Destroyed` state; a second call
is a no-op. -/
def destroy (s : SimState) : SimState :=
  if s.destroyed then s
  else
    { s with destroyLog := s.destroyLog ++ s.destroyQueue.map (fun d => actionId d.2),
             destroyQueue := [], queue := [], destroyed := true }

/-- A sequence of `ScheduleAfter` calls: each entry is (delay, marker). -/
def schedCalls : List (Int × Nat) → SimState → SimState
  | [], s => s
  | c :: cs, s => schedCalls cs (scheduleAfter c.1 (.mark c.2) s).2

/-- The trace entry produced when a pending marker event fires. -/
def evEntry (e : Event) : Nat × Int := (actionId e.action, e.time)

/-- The trace entry a scheduling call (delay, marker) from time 0 should
produce: (marker, fire time). -/
def callEntry (c : Int × Nat) : Nat × Int := (c.2, c.1)

/-- A valid `ScheduleAfter` argument from virtual time 0: a non-negative
delay that is representable. -/
def goodCalls (calls : List (Int × Nat)) : Prop :=
  ∀ c ∈ calls, 0 ≤ c.1 ∧ c.1 ≤ INT64_MAX

/-- Invariant tying a freshly scheduled batch of marker events to the
state reached by `schedCalls`: virtual time still 0, run not stopped nor
destroyed, empty trace, queue ordered by fire time, holding exactly the
uncancelled marker events of the processed calls — same multiset
(`Perm`), and per fire time in FIFO scheduling order (`filter`). -/
def MarkQueueInv (processed : List (Int × Nat)) (s : SimState) : Prop :=
  s.now = 0 ∧ s.destroyed = false ∧ s.stopFlag = false ∧ s.stopTime = none ∧
  s.trace = [] ∧
  s.queue.Pairwise (fun a b => a.time ≤ b.time) ∧
  (∀ e ∈ s.queue, (∃ i, e.action = Action.mark i) ∧ e.cancelled = false) ∧
  (∀ t : Int, (s.queue.filter (fun x => x.time == t)).map evEntry
      = (processed.filter (fun c => c.1 == t)).map callEntry) ∧
  (s.queue.map evEntry).Perm (processed.map callEntry) ∧
  s.queue.length = processed.length

/-- A cancelled handle `h` is protected in state `s`: its callback has not
been invoked, every queued event carrying it is marked cancelled, and the
never-reused sequence counter has moved past it. -/
def Safe (h : Nat) (s : SimState) : Prop :=
  h ∉ s.firedSeqs ∧ (∀ e ∈ s.queue, e.seq = h → e.cancelled = true) ∧
  h < s.nextSeq

/-- The run-loop time invariant: the queue is ordered by fire time and no
pending event fires before the current virtual time. -/
def TimeInv (s : SimState) : Prop :=
  s.queue.Pairwise (fun a b => a.time ≤ b.time) ∧
  ∀ e ∈ s.queue, s.now ≤ e.time

/-- Scenario C of the spec: a self-rescheduling callback (each firing
schedules another copy at +1 tick) scheduled at time 0 under a
`StopAt(100)` bound. -/
def scenC : SimState :=
  (scheduleAfter 0 (.selfReschedule 7 1) (stopAt 100 initState)).2

end NS3

namespace NS3

/-- Atomicity of `SetValueImpl`: the stored value is untouched on a false
return. -/
theorem setValueImpl_atomic {AV : Type} (casts : List (AV → Option AV))
    (tv tv' : TupleValueModel AV) (values : List AV)
    (h : SetValueImpl casts tv values = (false, tv')) : tv' = tv := by
  unfold SetValueImpl at h
  cases hc : castAll casts values with
  | none => rw [hc] at h; injection h with h1 h2; exact h2.symm
  | some ws => rw [hc] at h; injection h with h1 h2; cases h1

/-- Claim C10: `TupleValue::DeserializeFromString` is atomic on failure —
whenever it returns false (checker is not a TupleChecker, checker count
differs from the tuple arity, the string is empty or not enclosed in braces,
the element count differs from the arity, an element is rejected by its
per-element checker, or a per-position cast fails), the stored tuple value
`m_value` is left exactly as it was; it is replaced only on a run that
returns true. -/
theorem deserializeFromString_atomic_on_failure {AV : Type}
    (casts : List (AV → Option AV)) (tv : TupleValueModel AV)
    (value : String) (checker : CheckerModel AV)
    (h : (DeserializeFromString casts tv value checker).1 = false) :
    (DeserializeFromString casts tv value checker).2 = tv := by
  rcases hE : DeserializeFromString casts tv value checker with ⟨b, tv'⟩
  rw [hE] at h
  replace h : b = false := h
  show tv' = tv
  subst h
  unfold DeserializeFromString at hE
  cases checker with
  | otherChecker => injection hE with h1 h2; exact h2.symm
  | tupleChecker checkers =>
    repeat' split at hE
    all_goals
      first
      | (injection hE with h1 h2; exact h2.symm)
      | exact setValueImpl_atomic _ _ _ _ hE

/-- Witness for claim C10 at a concrete input: deserializing from a
non-tuple checker fails and leaves the stored value unchanged. -/
theorem deserializeFromString_atomic_on_failure_wit :
    (DeserializeFromString ([] : List (Nat → Option Nat)) ⟨[]⟩ "" .otherChecker).1 = false
    ∧ (DeserializeFromString ([] : List (Nat → Option Nat)) ⟨[]⟩ "" .otherChecker).2 = ⟨[]⟩ :=
  ⟨rfl, deserializeFromString_atomic_on_failure [] ⟨[]⟩ "" .otherChecker rfl⟩

/-! ### Ordered-insertion lemmas for the event queue -/

theorem mem_insertEvent {e y : Event} :
    ∀ {l : List Event}, y ∈ insertEvent e l ↔ y = e ∨ y ∈ l := by
  intro l
  induction l with
  | nil => simp [insertEvent]
  | cons x xs ih =>
    simp only [insertEvent]
    split
    · simp only [List.mem_cons, ih]; tauto
    · exact List.mem_cons

theorem length_insertEvent (e : Event) :
    ∀ (l : List Event), (insertEvent e l).length = l.length + 1 := by
  intro l
  induction l with
  | nil => rfl
  | cons x xs ih =>
    simp only [insertEvent]
    split
    · simp [ih]
    · simp

theorem perm_insertEvent (e : Event) :
    ∀ (l : List Event), (insertEvent e l).Perm (e :: l) := by
  intro l
  induction l with
  | nil => simp [insertEvent]
  | cons x xs ih =>
    simp only [insertEvent]
    split
    · exact (ih.cons x).trans (List.Perm.swap e x xs)
    · exact List.Perm.refl _

theorem pairwise_insertEvent {e : Event} :
    ∀ {l : List Event}, l.Pairwise (fun a b => a.time ≤ b.time) →
      (insertEvent e l).Pairwise (fun a b => a.time ≤ b.time) := by
  intro l
  induction l with
  | nil => intro _; simp [insertEvent]
  | cons x xs ih =>
    intro hp
    rcases List.pairwise_cons.mp hp with ⟨hx, hxs⟩
    simp only [insertEvent]
    split
    · rename_i hle
      refine List.pairwise_cons.mpr ⟨?_, ih hxs⟩
      intro y hy
      rcases mem_insertEvent.mp hy with rfl | hy
      · exact hle
      · exact hx y hy
    · rename_i hgt
      push_neg at hgt
      refine List.pairwise_cons.mpr ⟨?_, hp⟩
      intro y hy
      rcases List.mem_cons.mp hy with rfl | hy
      · exact le_of_lt hgt
      · exact le_trans (le_of_lt hgt) (hx y hy)

theorem filter_insertEvent (e : Event) (t : Int) :
    ∀ (l : List Event), l.Pairwise (fun a b => a.time ≤ b.time) →
      (insertEvent e l).filter (fun x => x.time == t) =
        if e.time = t then l.filter (fun x => x.time == t) ++ [e]
        else l.filter (fun x => x.time == t) := by
  intro l
  induction l with
  | nil =>
    intro _
    simp only [insertEvent, List.filter]
    split
    · rename_i h; simp [beq_iff_eq] at h ⊢; simp [h]
    · rename_i h; simp [beq_iff_eq] at h ⊢; simp [h]
  | cons x xs ih =>
    intro hp
    rcases List.pairwise_cons.mp hp with ⟨hx, hxs⟩
    simp only [insertEvent]
    split
    · rename_i hle
      rw [List.filter_cons, List.filter_cons, ih hxs]
      by_cases h1 : e.time = t <;> by_cases h2 : (x.time == t) = true <;>
        simp [h1, h2]
    · rename_i hgt
      push_neg at hgt
      rw [List.filter_cons]
      split
      · rename_i het
        rw [beq_iff_eq] at het
        rw [if_pos het]
        have hnone : (x :: xs).filter (fun y => y.time == t) = [] := by
          rw [List.filter_eq_nil_iff]
          intro y hy
          have hyt : x.time ≤ y.time := by
            rcases List.mem_cons.mp hy with rfl | hy
            · exact le_refl _
            · exact hx y hy
          simp only [beq_iff_eq]
          intro hcontra
          omega
        rw [hnone]
        simp
      · rename_i het
        rw [beq_iff_eq] at het
        rw [if_neg het]

theorem count_one_of_nodup_mem {α : Type} [BEq α] [LawfulBEq α] :
    ∀ {l : List α} {a : α}, l.Nodup → a ∈ l → l.count a = 1 := by
  intro l
  induction l with
  | nil => intro a _ ha; cases ha
  | cons x xs ih =>
    intro a hn ha
    rcases List.nodup_cons.mp hn with ⟨hx, hxs⟩
    rcases List.mem_cons.mp ha with rfl | ha
    · rw [List.count_cons_self, List.count_eq_zero.mpr hx]
    · have hne : a ≠ x := fun he => hx (he ▸ ha)
      rw [List.count_cons_of_ne hne, ih hxs ha]

theorem filter_of_map {α β : Type} (f : α → β) (p : β → Bool) :
    ∀ (l : List α), (l.map f).filter p = (l.filter (fun x => p (f x))).map f := by
  intro l
  induction l with
  | nil => rfl
  | cons x xs ih =>
    simp only [List.map_cons, List.filter_cons]
    by_cases h : p (f x) = true
    · simp [h, ih]
    · simp [h, ih]

/-! ### Scheduling a batch of marker events -/

theorem scheduleAt_ok (ctx : Nat) (d : Int) (a : Action) (s : SimState)
    (hd : s.destroyed = false) (h0 : 0 ≤ d)
    (hn : INT64_MIN ≤ s.now + d) (hr : s.now + d ≤ INT64_MAX) :
    scheduleAt ctx d a s =
      (.ok s.nextSeq,
       { s with nextSeq := s.nextSeq + 1,
                queue := insertEvent ⟨s.now + d, s.nextSeq, ctx, a, false⟩ s.queue }) := by
  unfold scheduleAt
  rw [if_neg (by simp [hd]), if_neg (by omega : ¬ d < 0)]
  unfold clockAdd inRangeI64
  rw [if_pos]
  simp only [Bool.and_eq_true, decide_eq_true_eq]
  exact ⟨hn, hr⟩

theorem markInv_init : MarkQueueInv [] initState := by
  refine ⟨rfl, rfl, rfl, rfl, rfl, ?_, ?_, ?_, ?_, rfl⟩
  · exact List.Pairwise.nil
  · intro e he; cases he
  · intro t; rfl
  · exact List.Perm.refl _

theorem markInv_step {p : List (Int × Nat)} {s : SimState}
    (hInv : MarkQueueInv p s) (d : Int) (i : Nat)
    (h0 : 0 ≤ d) (h1 : d ≤ INT64_MAX) :
    MarkQueueInv (p ++ [(d, i)]) (scheduleAfter d (.mark i) s).2 := by
  obtain ⟨hnow, hdes, hflag, hstop, htr, hpw, hmk, hfil, hperm, hlen⟩ := hInv
  have hn : INT64_MIN ≤ s.now + d := by rw [hnow]; unfold INT64_MIN; omega
  have hr : s.now + d ≤ INT64_MAX := by rw [hnow]; omega
  unfold scheduleAfter
  rw [scheduleAt_ok 0 d (.mark i) s hdes h0 hn hr]
  rw [hnow]
  simp only [zero_add]
  refine ⟨rfl, hdes, hflag, hstop, htr, ?_, ?_, ?_, ?_, ?_⟩
  · exact pairwise_insertEvent hpw
  · intro e he
    rcases mem_insertEvent.mp he with rfl | he
    · exact ⟨⟨i, rfl⟩, rfl⟩
    · exact hmk e he
  · intro t
    rw [filter_insertEvent _ t s.queue hpw, List.filter_append, List.map_append]
    by_cases ht : d = t
    · subst ht
      rw [if_pos rfl, List.map_append, hfil d]
      simp [List.filter_cons, evEntry, callEntry, actionId]
    · rw [if_neg ht, hfil t]
      have hb : (d == t) = false := beq_eq_false_iff_ne.mpr ht
      simp [List.filter_cons, hb]
  · rw [List.map_append]
    refine ((perm_insertEvent _ s.queue).map evEntry).trans ?_
    rw [List.map_cons]
    exact (hperm.cons _).trans (List.perm_append_singleton _ _).symm
  · rw [length_insertEvent, hlen, List.length_append, List.length_cons,
      List.length_nil]

theorem markInv_sched :
    ∀ (calls : List (Int × Nat)) (p : List (Int × Nat)) (s : SimState),
      MarkQueueInv p s → goodCalls calls →
      MarkQueueInv (p ++ calls) (schedCalls calls s) := by
  intro calls
  induction calls with
  | nil => intro p s hInv _; simpa using hInv
  | cons c cs ih =>
    intro p s hInv hg
    have hc := hg c (List.mem_cons_self c cs)
    have hstep := markInv_step hInv c.1 c.2 hc.1 hc.2
    have hg' : goodCalls cs := fun x hx => hg x (List.mem_cons_of_mem c hx)
    have := ih (p ++ [c]) ((scheduleAfter c.1 (.mark c.2) s).2) hstep hg'
    simpa [schedCalls, List.append_assoc] using this

/-! ### Draining a queue of marker events -/

theorem run_marks :
    ∀ (fuel : Nat) (s : SimState),
      s.stopFlag = false → s.stopTime = none →
      (∀ e ∈ s.queue, (∃ i, e.action = Action.mark i) ∧ e.cancelled = false) →
      s.queue.length ≤ fuel →
      (run fuel s).trace = s.trace ++ s.queue.map evEntry ∧
        (run fuel s).queue = [] := by
  intro fuel
  induction fuel with
  | zero =>
    intro s _ _ _ hlen
    have hq : s.queue = [] := List.length_eq_zero.mp (Nat.le_zero.mp hlen)
    simp [run, hq]
  | succ n ih =>
    intro s hflag hstop hmk hlen
    cases hq : s.queue with
    | nil => simp [run, step, hflag, hq]
    | cons e rest =>
      have hme := hmk e (by rw [hq]; exact List.mem_cons_self e rest)
      obtain ⟨⟨i, hai⟩, hcan⟩ := hme
      have hstep : step s = some (runAction e.action
          { s with now := e.time, queue := rest,
                   firedSeqs := s.firedSeqs ++ [e.seq] }) := by
        unfold step
        rw [if_neg (by simp [hflag]), hq, hstop]
        simp [stepExec, hcan, hstop]
      have hrun : run (n + 1) s = run n (runAction e.action
          { s with now := e.time, queue := rest,
                   firedSeqs := s.firedSeqs ++ [e.seq] }) := by
        show (match step s with | none => s | some s' => run n s') = _
        rw [hstep]
      rw [hrun, hai]
      have hres := ih { s with now := e.time, queue := rest,
                               firedSeqs := s.firedSeqs ++ [e.seq],
                               trace := s.trace ++ [(i, e.time)] }
        hflag hstop
        (by intro x hx; exact hmk x (by rw [hq]; exact List.mem_cons_of_mem e hx))
        (by have h := hlen; rw [hq] at h; simpa using h)
      refine ⟨?_, hres.2⟩
      have h1 : (run n (runAction (Action.mark i)
          { s with now := e.time, queue := rest,
                   firedSeqs := s.firedSeqs ++ [e.seq] })).trace
          = (s.trace ++ [(i, e.time)]) ++ rest.map evEntry := hres.1
      rw [h1]
      simp [evEntry, hai, actionId, List.append_assoc]

/-! ### Claims C1 and C2 -/

/-- Claim C1: for every sequence of `ScheduleAfter(d, cb)` calls with d ≥ 0
followed by running to completion, callbacks are invoked in non-decreasing
order of their absolute fire times, and among events with equal fire times
in the order the schedule calls were made (FIFO tie-break); in particular,
scheduling at t = 5, 3, 3, 7 with markers 0, 1, 2, 3 yields invocation
order [(1,3), (2,3), (0,5), (3,7)], the two t = 3 events in insertion
order. -/
theorem scheduleAfter_fifo_time_order (calls : List (Int × Nat)) (fuel : Nat)
    (hv : goodCalls calls) (hf : calls.length ≤ fuel) :
    (((run fuel (schedCalls calls initState)).trace.map Prod.snd).Pairwise
        (fun a b => a ≤ b))
    ∧ (∀ t : Int,
        (run fuel (schedCalls calls initState)).trace.filter
            (fun p => p.2 == t)
          = (calls.filter (fun c => c.1 == t)).map callEntry)
    ∧ (run 4 (schedCalls [(5, 0), (3, 1), (3, 2), (7, 3)] initState)).trace
        = [(1, 3), (2, 3), (0, 5), (3, 7)] := by
  have hInv := markInv_sched calls [] initState markInv_init hv
  rw [List.nil_append] at hInv
  obtain ⟨hnow, hdes, hflag, hstop, htr, hpw, hmk, hfil, hperm, hlen⟩ := hInv
  have hdr := run_marks fuel (schedCalls calls initState) hflag hstop hmk
    (by rw [hlen]; exact hf)
  refine ⟨?_, ?_, ?_⟩
  · rw [hdr.1, htr, List.nil_append]
    refine List.pairwise_map.mpr (List.pairwise_map.mpr ?_)
    exact hpw.imp (fun hab => hab)
  · intro t
    rw [hdr.1, htr, List.nil_append]
    rw [filter_of_map evEntry (fun p => p.2 == t) _]
    have : (fun x => (evEntry x).2 == t) = (fun x : Event => x.time == t) := by
      funext x; rfl
    rw [this, hfil t]
  · decide

/-- Witness for claim C1 at the Scenario A input. -/
theorem scheduleAfter_fifo_time_order_wit :
    goodCalls [(5, 0), (3, 1), (3, 2), (7, 3)]
    ∧ ([(5, 0), (3, 1), (3, 2), (7, 3)] : List (Int × Nat)).length ≤ 4
    ∧ (run 4 (schedCalls [(5, 0), (3, 1), (3, 2), (7, 3)] initState)).trace
        = [(1, 3), (2, 3), (0, 5), (3, 7)] :=
  ⟨by unfold goodCalls; decide, by decide,
    (scheduleAfter_fifo_time_order [(5, 0), (3, 1), (3, 2), (7, 3)] 4
      (by unfold goodCalls; decide) (by decide)).2.2⟩

/-- Claim C2: scheduling N events at pairwise distinct fire times and
running to completion invokes exactly N callbacks, each exactly once, and
each callback observes `Now()` equal to its own event's fire time — the
trace is a permutation of the scheduled (marker, fire time) pairs, has
length N, and counts each scheduled pair exactly once. -/
theorem distinct_times_round_trip (calls : List (Int × Nat)) (fuel : Nat)
    (hv : goodCalls calls) (hf : calls.length ≤ fuel)
    (hdist : (calls.map Prod.fst).Nodup) :
    ((run fuel (schedCalls calls initState)).trace.Perm
        (calls.map callEntry))
    ∧ (run fuel (schedCalls calls initState)).trace.length = calls.length
    ∧ ∀ c ∈ calls,
        (run fuel (schedCalls calls initState)).trace.count (callEntry c)
          = 1 := by
  have hInv := markInv_sched calls [] initState markInv_init hv
  rw [List.nil_append] at hInv
  obtain ⟨hnow, hdes, hflag, hstop, htr, hpw, hmk, hfil, hperm, hlen⟩ := hInv
  have hdr := run_marks fuel (schedCalls calls initState) hflag hstop hmk
    (by rw [hlen]; exact hf)
  have htrace : (run fuel (schedCalls calls initState)).trace
      = (schedCalls calls initState).queue.map evEntry := by
    rw [hdr.1, htr, List.nil_append]
  have hP : (run fuel (schedCalls calls initState)).trace.Perm
      (calls.map callEntry) := by
    rw [htrace]; exact hperm
  have hnd : (calls.map callEntry).Nodup := by
    refine List.Nodup.of_map Prod.snd ?_
    rw [List.map_map]
    have : (Prod.snd ∘ callEntry) = (Prod.fst : Int × Nat → Int) := by
      funext c; rfl
    rw [this]
    exact hdist
  refine ⟨hP, hP.length_eq.trans (List.length_map _ _), ?_⟩
  intro c hc
  have hcnt : List.count (callEntry c) (run fuel (schedCalls calls initState)).trace
      = List.count (callEntry c) (calls.map callEntry) := hP.countP_eq _
  rw [hcnt]
  exact count_one_of_nodup_mem hnd (List.mem_map_of_mem callEntry hc)

/-- Witness for claim C2: three events at distinct times 4, 2, 9. -/
theorem distinct_times_round_trip_wit :
    goodCalls [(4, 0), (2, 1), (9, 2)]
    ∧ ([(4, 0), (2, 1), (9, 2)] : List (Int × Nat)).length ≤ 3
    ∧ (([(4, 0), (2, 1), (9, 2)] : List (Int × Nat)).map Prod.fst).Nodup
    ∧ (run 3 (schedCalls [(4, 0), (2, 1), (9, 2)] initState)).trace.length
        = 3 :=
  ⟨by unfold goodCalls; decide, by decide, by decide,
    (distinct_times_round_trip [(4, 0), (2, 1), (9, 2)] 3
      (by unfold goodCalls; decide) (by decide) (by decide)).2.1⟩

/-! ### Cancellation safety -/

theorem run_succ (n : Nat) (s : SimState) :
    run (n + 1) s = match step s with | none => s | some s' => run n s' :=
  rfl

theorem scheduleAt_safe {ctx : Nat} {d : Int} {a : Action} {s : SimState}
    {h : Nat} (hs : Safe h s) : Safe h (scheduleAt ctx d a s).2 := by
  obtain ⟨hf, hq, hn⟩ := hs
  unfold scheduleAt
  split
  · exact ⟨hf, hq, hn⟩
  · split
    · exact ⟨hf, hq, hn⟩
    · cases hca : clockAdd s.now d with
      | error err => simp only [hca]; exact ⟨hf, hq, hn⟩
      | ok t =>
        simp only [hca]
        refine ⟨hf, ?_, Nat.lt_succ_of_lt hn⟩
        intro e he heq
        rcases mem_insertEvent.mp he with rfl | he
        · exfalso; simp at heq; omega
        · exact hq e he heq

theorem runAction_safe {a : Action} {s : SimState} {h : Nat}
    (hs : Safe h s) : Safe h (runAction a s) := by
  obtain ⟨hf, hq, hn⟩ := hs
  cases a with
  | mark i => exact ⟨hf, hq, hn⟩
  | selfReschedule i d => exact scheduleAt_safe ⟨hf, hq, hn⟩

theorem stepExec_safe {e : Event} {rest : List Event} {s : SimState} {h : Nat}
    (hqe : s.queue = e :: rest) (hs : Safe h s) : Safe h (stepExec e rest s) := by
  obtain ⟨hf, hq, hn⟩ := hs
  have hqr : ∀ x ∈ rest, x.seq = h → x.cancelled = true := by
    intro x hx
    exact hq x (by rw [hqe]; exact List.mem_cons_of_mem e hx)
  unfold stepExec
  split
  · exact ⟨hf, hqr, hn⟩
  · rename_i hcan
    refine runAction_safe ⟨?_, hqr, hn⟩
    intro hmem
    rcases List.mem_append.mp hmem with hmem | hmem
    · exact hf hmem
    · have heq : h = e.seq := by simpa using hmem
      have he := hq e (by rw [hqe]; exact List.mem_cons_self e rest) heq.symm
      rw [he] at hcan
      exact hcan rfl

theorem step_safe {s s' : SimState} {h : Nat}
    (hst : step s = some s') (hs : Safe h s) : Safe h s' := by
  unfold step at hst
  split at hst
  · cases hst
  · split at hst
    · cases hst
    · rename_i e rest heq
      split at hst
      · split at hst
        · cases hst
        · injection hst with h1
          rw [← h1]
          exact stepExec_safe heq hs
      · injection hst with h1
        rw [← h1]
        exact stepExec_safe heq hs

theorem run_safe {h : Nat} :
    ∀ (fuel : Nat) (s : SimState), Safe h s → Safe h (run fuel s) := by
  intro fuel
  induction fuel with
  | zero => intro s hs; exact hs
  | succ n ih =>
    intro s hs
    rw [run_succ]
    cases hst : step s with
    | none => exact hs
    | some s' => exact ih s' (step_safe hst hs)

theorem cancelMark_seq (h : Nat) (x : Event) : (cancelMark h x).seq = x.seq := by
  unfold cancelMark
  split <;> rfl

theorem cancelMark_idem (h : Nat) (x : Event) :
    cancelMark h (cancelMark h x) = cancelMark h x := by
  unfold cancelMark
  by_cases hx : (x.seq == h) = true <;> simp [hx]

theorem cancel_snd (h : Nat) (s : SimState)
    (hp : s.queue.any (fun e => e.seq == h) = true) :
    cancel h s = (true, { s with queue := s.queue.map (cancelMark h) }) := by
  unfold cancel
  rw [if_pos hp]

/-- Claim C3: cancelling a pending event before it fires guarantees its
callback is never invoked (its sequence number never enters the
invocation log, for any amount of running); cancelling again is a safe
no-op returning the same defined status; cancelling an event that is no
longer pending (already fired) returns false and changes nothing; and
Scenario B — schedule at t = 10, cancel before running — completes with
zero invocations and an empty queue. -/
theorem cancel_prevents_invocation (s : SimState) (h fuel : Nat)
    (hp : s.queue.any (fun e => e.seq == h) = true)
    (hf : h ∉ s.firedSeqs) (hn : h < s.nextSeq) :
    ((cancel h s).1 = true
      ∧ h ∉ (run fuel (cancel h s).2).firedSeqs)
    ∧ cancel h (cancel h s).2 = (true, (cancel h s).2)
    ∧ (∀ u : SimState, ∀ k : Nat,
        (∀ e ∈ u.queue, e.seq ≠ k) → cancel k u = (false, u))
    ∧ (run 2 (cancel 0 (scheduleAfter 10 (.mark 5) initState).2).2).trace = []
    ∧ (run 2 (cancel 0 (scheduleAfter 10 (.mark 5) initState).2).2).queue = []
    ∧ (run 2 (cancel 0 (scheduleAfter 10 (.mark 5) initState).2).2).firedSeqs
        = [] := by
  have hsafe : Safe h (cancel h s).2 := by
    unfold cancel
    rw [if_pos hp]
    refine ⟨hf, ?_, hn⟩
    intro e he heq
    rcases List.mem_map.mp he with ⟨x, hx, rfl⟩
    by_cases hxh : (x.seq == h) = true
    · simp [cancelMark, hxh]
    · exfalso
      have hxe : x.seq = h := by
        rw [cancelMark_seq] at heq
        exact heq
      exact hxh (beq_iff_eq.mpr hxe)
  refine ⟨⟨?_, ?_⟩, ?_, ?_, by decide, by decide, by decide⟩
  · unfold cancel
    rw [if_pos hp]
  · exact (run_safe fuel (cancel h s).2 hsafe).1
  · have hcomp : ((fun e : Event => e.seq == h) ∘ cancelMark h)
        = (fun e : Event => e.seq == h) := by
      funext x
      rw [Function.comp_apply, cancelMark_seq]
    have hpm : (s.queue.map (cancelMark h)).any (fun e => e.seq == h)
        = true := by
      rw [List.any_map, hcomp]
      exact hp
    rw [cancel_snd h s hp]
    show cancel h { s with queue := s.queue.map (cancelMark h) }
        = (true, { s with queue := s.queue.map (cancelMark h) })
    rw [cancel_snd h { s with queue := s.queue.map (cancelMark h) } hpm]
    show ((true, { s with queue :=
        (s.queue.map (cancelMark h)).map (cancelMark h) }) : Bool × SimState)
      = (true, { s with queue := s.queue.map (cancelMark h) })
    rw [List.map_map]
    have hqq : List.map (cancelMark h ∘ cancelMark h) s.queue
        = List.map (cancelMark h) s.queue :=
      List.map_congr_left (fun x _ => cancelMark_idem h x)
    rw [hqq]
  · intro u k hk
    have hfalse : u.queue.any (fun e => e.seq == k) = false := by
      rw [List.any_eq_false]
      intro x hx
      simp only [Bool.not_eq_true, beq_eq_false_iff_ne, ne_eq]
      exact hk x hx
    have hnp : ¬ (u.queue.any (fun e => e.seq == k) = true) := by
      rw [hfalse]
      exact Bool.false_ne_true
    unfold cancel
    rw [if_neg hnp]

/-- Witness for claim C3: one event scheduled at t = 10, handle 0,
cancelled before running. -/
theorem cancel_prevents_invocation_wit :
    ((cancel 0 (scheduleAfter 10 (.mark 5) initState).2).1 = true
      ∧ 0 ∉ (run 2 (cancel 0 (scheduleAfter 10 (.mark 5) initState).2).2).firedSeqs) :=
  (cancel_prevents_invocation (scheduleAfter 10 (.mark 5) initState).2 0 2
    (by decide) (by decide) (by decide)).1

/-! ### Virtual time is monotone along the run loop -/

theorem clockAdd_ok {a b v : Int} (h : clockAdd a b = .ok v) : v = a + b := by
  unfold clockAdd at h
  split at h
  · injection h with h1; exact h1.symm
  · cases h

theorem pairwise_le_of_const {l : List (Nat × Int)} {c : Int}
    (h : ∀ p ∈ l, p.2 = c) :
    (l.map Prod.snd).Pairwise (fun a b => a ≤ b) := by
  induction l with
  | nil => exact List.Pairwise.nil
  | cons x xs ih =>
    rw [List.map_cons]
    refine List.pairwise_cons.mpr
      ⟨?_, ih (fun p hp => h p (List.mem_cons_of_mem x hp))⟩
    intro b hb
    rcases List.mem_map.mp hb with ⟨q, hq, rfl⟩
    rw [h x (List.mem_cons_self x xs), h q (List.mem_cons_of_mem x hq)]

theorem scheduleAt_mono {ctx : Nat} {d : Int} {a : Action} {s : SimState}
    (hInv : TimeInv s) :
    TimeInv (scheduleAt ctx d a s).2
    ∧ (scheduleAt ctx d a s).2.now = s.now
    ∧ (scheduleAt ctx d a s).2.trace = s.trace := by
  obtain ⟨hpw, hge⟩ := hInv
  unfold scheduleAt
  split
  · exact ⟨⟨hpw, hge⟩, rfl, rfl⟩
  · rename_i hd0
    split
    · exact ⟨⟨hpw, hge⟩, rfl, rfl⟩
    · rename_i hdneg
      split
      · exact ⟨⟨hpw, hge⟩, rfl, rfl⟩
      · rename_i t heq
        refine ⟨⟨pairwise_insertEvent hpw, ?_⟩, rfl, rfl⟩
        intro e he
        rcases mem_insertEvent.mp he with rfl | he
        · show s.now ≤ t
          have ht := clockAdd_ok heq
          omega
        · exact hge e he

theorem runAction_mono {a : Action} {s : SimState} (hInv : TimeInv s) :
    TimeInv (runAction a s) ∧ (runAction a s).now = s.now
    ∧ ∃ ext, (runAction a s).trace = s.trace ++ ext
        ∧ ∀ p ∈ ext, p.2 = s.now := by
  cases a with
  | mark i =>
    exact ⟨hInv, rfl, [(i, s.now)], rfl, by simp⟩
  | selfReschedule i d =>
    have h := @scheduleAt_mono 0 d (Action.selfReschedule i d)
      { s with trace := s.trace ++ [(i, s.now)] } ⟨hInv.1, hInv.2⟩
    refine ⟨h.1, h.2.1, [(i, s.now)], ?_, by simp⟩
    show (scheduleAt 0 d (.selfReschedule i d)
        { s with trace := s.trace ++ [(i, s.now)] }).2.trace
      = s.trace ++ [(i, s.now)]
    exact h.2.2

theorem stepExec_mono {e : Event} {rest : List Event} {s : SimState}
    (heq : s.queue = e :: rest) (hInv : TimeInv s) :
    TimeInv (stepExec e rest s) ∧ s.now ≤ (stepExec e rest s).now
    ∧ ∃ ext, (stepExec e rest s).trace = s.trace ++ ext
        ∧ ∀ p ∈ ext, p.2 = (stepExec e rest s).now := by
  obtain ⟨hpw, hge⟩ := hInv
  have hpw' : (e :: rest).Pairwise (fun a b => a.time ≤ b.time) := heq ▸ hpw
  rcases List.pairwise_cons.mp hpw' with ⟨hhead, htail⟩
  have hnow_e : s.now ≤ e.time :=
    hge e (by rw [heq]; exact List.mem_cons_self e rest)
  unfold stepExec
  split
  · exact ⟨⟨htail, fun x hx => hhead x hx⟩, hnow_e, [], by simp, by simp⟩
  · have hI1 : TimeInv { s with now := e.time, queue := rest, firedSeqs := s.firedSeqs ++ [e.seq] } :=
      ⟨htail, fun x hx => hhead x hx⟩
    obtain ⟨hmI, hmnow, ext, hmtr, hmc⟩ := runAction_mono hI1
    refine ⟨hmI, ?_, ext, hmtr, ?_⟩
    · rw [hmnow]
      exact hnow_e
    · intro p hp
      rw [hmnow]
      exact hmc p hp

theorem step_mono {s s' : SimState} (hst : step s = some s')
    (hInv : TimeInv s) :
    TimeInv s' ∧ s.now ≤ s'.now
    ∧ ∃ ext, s'.trace = s.trace ++ ext ∧ ∀ p ∈ ext, p.2 = s'.now := by
  unfold step at hst
  split at hst
  · cases hst
  · split at hst
    · cases hst
    · rename_i e rest heq
      split at hst
      · split at hst
        · cases hst
        · injection hst with h1
          rw [← h1]
          exact stepExec_mono heq hInv
      · injection hst with h1
        rw [← h1]
        exact stepExec_mono heq hInv

theorem run_mono : ∀ (fuel : Nat) (s : SimState), TimeInv s →
    TimeInv (run fuel s) ∧ s.now ≤ (run fuel s).now
    ∧ ∃ ext, (run fuel s).trace = s.trace ++ ext
        ∧ (ext.map Prod.snd).Pairwise (fun a b => a ≤ b)
        ∧ ∀ p ∈ ext, s.now ≤ p.2 ∧ p.2 ≤ (run fuel s).now := by
  intro fuel
  induction fuel with
  | zero =>
    intro s h
    exact ⟨h, le_refl _, [], by rw [List.append_nil]; rfl, List.Pairwise.nil,
      by simp⟩
  | succ n ih =>
    intro s hInv
    rw [run_succ]
    cases hst : step s with
    | none =>
      exact ⟨hInv, le_refl _, [], by rw [List.append_nil], List.Pairwise.nil,
        by simp⟩
    | some s' =>
      obtain ⟨hI1, hle, ext0, htr0, hc0⟩ := step_mono hst hInv
      obtain ⟨hIr, hler, ext1, htr1, hpw1, hb1⟩ := ih s' hI1
      refine ⟨hIr, le_trans hle hler, ext0 ++ ext1, ?_, ?_, ?_⟩
      · rw [htr1, htr0, List.append_assoc]
      · rw [List.map_append, List.pairwise_append]
        refine ⟨pairwise_le_of_const hc0, hpw1, ?_⟩
        intro x hx y hy
        rcases List.mem_map.mp hx with ⟨p, hp, rfl⟩
        rcases List.mem_map.mp hy with ⟨q, hq, rfl⟩
        rw [hc0 p hp]
        exact (hb1 q hq).1
      · intro p hp
        rcases List.mem_append.mp hp with hp | hp
        · rw [hc0 p hp]
          exact ⟨hle, hler⟩
        · obtain ⟨hb, hb'⟩ := hb1 p hp
          exact ⟨le_trans hle hb, hb'⟩

/-! ### Claim C5: Now() never regresses -/

/-- Claim C5: across a `Run()` started in a well-formed state (ordered
queue, no event before the current time, empty trace), the virtual clock
is monotonically non-decreasing — the final `Now()` is at least the
initial one, the invocation-time observations in the trace are pairwise
non-decreasing (including several events at the same instant), and every
observation lies between the initial and final `Now()`. -/
theorem now_monotonic_during_run (s : SimState) (fuel : Nat)
    (hq : s.queue.Pairwise (fun a b => a.time ≤ b.time))
    (hn : ∀ e ∈ s.queue, s.now ≤ e.time) (htr : s.trace = []) :
    s.now ≤ (run fuel s).now
    ∧ ((run fuel s).trace.map Prod.snd).Pairwise (fun a b => a ≤ b)
    ∧ ∀ p ∈ (run fuel s).trace, s.now ≤ p.2 ∧ p.2 ≤ (run fuel s).now := by
  obtain ⟨hI, hle, ext, htrace, hpw, hb⟩ := run_mono fuel s ⟨hq, hn⟩
  rw [htrace, htr, List.nil_append]
  exact ⟨hle, hpw, hb⟩

/-- Witness for claim C5: a run of the self-rescheduling Scenario C state,
whose queue holds one event at time 0. -/
theorem now_monotonic_during_run_wit :
    0 ≤ (run 101 scenC).now
    ∧ ((run 101 scenC).trace.map Prod.snd).Pairwise (fun a b => a ≤ b) := by
  have h := now_monotonic_during_run scenC 101 (by decide) (by decide) rfl
  exact ⟨h.1, h.2.1⟩

/-! ### Claim C4: negative delays are rejected, not clamped -/

/-- Claim C4: a scheduling call with a negative delay fails synchronously
with `InvalidDelay` and leaves the whole simulator state — in particular
the event queue — unchanged; the delay is not clamped to zero.  This holds
for `ScheduleAfter` and for cross-context `ScheduleAt` alike. -/
theorem negative_delay_rejected (s : SimState) (d : Int) (ctx : Nat)
    (a : Action) (hnd : s.destroyed = false) (hd : d < 0) :
    scheduleAfter d a s = (.error .InvalidDelay, s)
    ∧ scheduleAt ctx d a s = (.error .InvalidDelay, s) := by
  constructor
  · unfold scheduleAfter scheduleAt
    rw [if_neg (by simp [hnd]), if_pos hd]
  · unfold scheduleAt
    rw [if_neg (by simp [hnd]), if_pos hd]

/-- Witness for claim C4: Scenario E, `ScheduleAfter(-5, cb)` on the fresh
simulator. -/
theorem negative_delay_rejected_wit :
    scheduleAfter (-5) (.mark 0) initState
      = (.error .InvalidDelay, initState) :=
  (negative_delay_rejected initState (-5) 3 (.mark 0)
    (by decide) (by decide)).1

/-! ### Claim C8: virtual-clock arithmetic surfaces overflow -/

/-- Claim C8: for representable 64-bit signed tick values, `VirtualClock`
addition of a duration and subtraction yielding a duration return the
exact mathematical result when it is representable, and fail explicitly
with `Overflow` exactly when it is not — results are never silently
wrapped or truncated. -/
theorem clock_overflow_explicit (a b : Int)
    (ha : inRangeI64 a = true) (hb : inRangeI64 b = true) :
    (∀ v : Int, clockAdd a b = .ok v → v = a + b)
    ∧ (clockAdd a b = .error .Overflow ↔ inRangeI64 (a + b) = false)
    ∧ (∀ v : Int, clockSub a b = .ok v → v = a - b)
    ∧ (clockSub a b = .error .Overflow ↔ inRangeI64 (a - b) = false) := by
  refine ⟨?_, ?_, ?_, ?_⟩
  · intro v hv
    unfold clockAdd at hv
    split at hv
    · injection hv with h1; exact h1.symm
    · cases hv
  · unfold clockAdd
    split
    · rename_i hr; simp [hr]
    · rename_i hr
      simp only [Bool.not_eq_true] at hr
      simp [hr]
  · intro v hv
    unfold clockSub at hv
    split at hv
    · injection hv with h1; exact h1.symm
    · cases hv
  · unfold clockSub
    split
    · rename_i hr; simp [hr]
    · rename_i hr
      simp only [Bool.not_eq_true] at hr
      simp [hr]

/-- Witness for claim C8: INT64_MAX + 1 overflows explicitly. -/
theorem clock_overflow_explicit_wit :
    inRangeI64 INT64_MAX = true ∧ inRangeI64 1 = true
    ∧ clockAdd INT64_MAX 1 = .error .Overflow :=
  ⟨by decide, by decide,
    (clock_overflow_explicit INT64_MAX 1 (by decide) (by decide)).2.1.mpr
      (by decide)⟩

/-! ### Frame lemmas: the run loop never touches teardown state -/

theorem runAction_frame (a : Action) (s : SimState) :
    (runAction a s).destroyQueue = s.destroyQueue
    ∧ (runAction a s).destroyLog = s.destroyLog
    ∧ (runAction a s).destroyed = s.destroyed := by
  cases a with
  | mark i => exact ⟨rfl, rfl, rfl⟩
  | selfReschedule i d =>
    unfold runAction scheduleAfter scheduleAt
    repeat' split
    all_goals exact ⟨rfl, rfl, rfl⟩

theorem step_frame {s s' : SimState} (hst : step s = some s') :
    s'.destroyQueue = s.destroyQueue ∧ s'.destroyLog = s.destroyLog
    ∧ s'.destroyed = s.destroyed := by
  unfold step at hst
  split at hst
  · cases hst
  · split at hst
    · cases hst
    · rename_i e rest heq
      split at hst
      · split at hst
        · cases hst
        · injection hst with h1
          rw [← h1]
          unfold stepExec
          split
          · exact ⟨rfl, rfl, rfl⟩
          · exact runAction_frame _ _
      · injection hst with h1
        rw [← h1]
        unfold stepExec
        split
        · exact ⟨rfl, rfl, rfl⟩
        · exact runAction_frame _ _

theorem run_frame : ∀ (fuel : Nat) (s : SimState),
    (run fuel s).destroyQueue = s.destroyQueue
    ∧ (run fuel s).destroyLog = s.destroyLog
    ∧ (run fuel s).destroyed = s.destroyed := by
  intro fuel
  induction fuel with
  | zero => intro s; exact ⟨rfl, rfl, rfl⟩
  | succ n ih =>
    intro s
    rw [run_succ]
    cases hst : step s with
    | none => exact ⟨rfl, rfl, rfl⟩
    | some s' =>
      obtain ⟨h1, h2, h3⟩ := ih s'
      obtain ⟨g1, g2, g3⟩ := step_frame hst
      exact ⟨h1.trans g1, h2.trans g2, h3.trans g3⟩

/-! ### Claim C9: Destroyed is terminal -/

/-- Claim C9: after `Destroy()`, every scheduling primitive
(`ScheduleAfter`, `ScheduleAt`, `ScheduleNow`, `ScheduleDestroy`) fails
synchronously with `NotRunnable` and enqueues nothing (the state is
returned unchanged); the `Destroyed` state survives any further `Run()`
and any further `Destroy()` — it is terminal. -/
theorem destroyed_is_terminal (s : SimState) (d : Int) (ctx : Nat)
    (a : Action) (fuel : Nat) (hd : s.destroyed = true) :
    scheduleAfter d a s = (.error .NotRunnable, s)
    ∧ scheduleAt ctx d a s = (.error .NotRunnable, s)
    ∧ scheduleNow a s = (.error .NotRunnable, s)
    ∧ scheduleDestroy a s = (.error .NotRunnable, s)
    ∧ (run fuel s).destroyed = true
    ∧ destroy s = s := by
  refine ⟨?_, ?_, ?_, ?_, ?_, ?_⟩
  · unfold scheduleAfter scheduleAt; rw [if_pos hd]
  · unfold scheduleAt; rw [if_pos hd]
  · unfold scheduleNow scheduleAfter scheduleAt; rw [if_pos hd]
  · unfold scheduleDestroy; rw [if_pos hd]
  · exact ((run_frame fuel s).2.2).trans hd
  · unfold destroy; rw [if_pos hd]

/-- Witness for claim C9 at the destroyed fresh simulator. -/
theorem destroyed_is_terminal_wit :
    scheduleAfter 3 (.mark 0) (destroy initState)
        = (.error .NotRunnable, destroy initState)
    ∧ (run 5 (destroy initState)).destroyed = true := by
  have h := destroyed_is_terminal (destroy initState) 3 1 (.mark 0) 5
    (by decide)
  exact ⟨h.1, h.2.2.2.2.1⟩

/-! ### Run-loop fixpoints -/

theorem run_none {s : SimState} (h : step s = none) :
    ∀ n : Nat, run n s = s := by
  intro n
  cases n with
  | zero => rfl
  | succ m => rw [run_succ, h]

theorem run_add : ∀ (m n : Nat) (s : SimState),
    run (m + n) s = run n (run m s) := by
  intro m
  induction m with
  | zero =>
    intro n s
    rw [Nat.zero_add]
    rfl
  | succ k ih =>
    intro n s
    rw [show k + 1 + n = (k + n) + 1 by omega, run_succ, run_succ]
    cases hst : step s with
    | none => exact (run_none hst n).symm
    | some s' => exact ih n s'

/-! ### Claim C6: StopAt bounds terminate self-rescheduling chains -/

set_option maxRecDepth 40000

/-- Claim C6: a self-rescheduling callback (each firing schedules another
copy of itself at +1 tick) run under `StopAt(100)` terminates: after 101
iterations the loop reaches a fixpoint (`step` returns `none`, so any
larger fuel gives the same state), the clock stands at t = 100, and the
callback was invoked exactly 101 times, at t = 0, 1, ..., 100.  Moreover a
`StopAt` bound in the past relative to the current time stops the loop
immediately, before any further event. -/
theorem stop_at_bound_terminates (fuel : Nat) (hf : 101 ≤ fuel) :
    run fuel scenC = run 101 scenC
    ∧ step (run 101 scenC) = none
    ∧ (run 101 scenC).now = 100
    ∧ (run 101 scenC).trace = (List.range 101).map (fun i => (7, Int.ofNat i))
    ∧ (∀ u : SimState, ∀ T : Int, u.stopTime = some T → T < u.now →
        (∀ e ∈ u.queue, u.now ≤ e.time) → step u = none) := by
  have hnone : step (run 101 scenC) = none := by decide
  refine ⟨?_, hnone, by decide, by decide, ?_⟩
  · rw [show fuel = 101 + (fuel - 101) by omega, run_add,
      run_none hnone]
  · intro u T hsT hlt hq
    unfold step
    by_cases hfl : u.stopFlag = true
    · rw [if_pos hfl]
    · rw [if_neg hfl]
      cases hqe : u.queue with
      | nil => rfl
      | cons e rest =>
        have ht : T < e.time :=
          lt_of_lt_of_le hlt
            (hq e (by rw [hqe]; exact List.mem_cons_self e rest))
        rw [hsT]
        show (if T < e.time then none else some (stepExec e rest u))
            = (none : Option SimState)
        rw [if_pos ht]

/-- Witness for claim C6 at fuel 150. -/
theorem stop_at_bound_terminates_wit :
    run 150 scenC = run 101 scenC
    ∧ (run 101 scenC).now = 100
    ∧ (run 101 scenC).trace.length = 101 := by
  have h := stop_at_bound_terminates 150 (by decide)
  refine ⟨h.1, h.2.2.1, ?_⟩
  rw [h.2.2.2.1, List.length_map, List.length_range]

/-! ### Claim C7: Destroy drains cleanup events once, idempotently -/

theorem scheduleDestroy_props (x : Action) (u : SimState)
    (hu : u.destroyed = false) :
    (scheduleDestroy x u).2.destroyQueue = u.destroyQueue ++ [(u.nextSeq, x)]
    ∧ (scheduleDestroy x u).2.destroyLog = u.destroyLog
    ∧ (scheduleDestroy x u).2.destroyed = false := by
  unfold scheduleDestroy
  rw [if_neg (by simp [hu])]
  exact ⟨rfl, rfl, hu⟩

theorem destroy_log (u : SimState) (hu : u.destroyed = false) :
    (destroy u).destroyLog
      = u.destroyLog ++ u.destroyQueue.map (fun d => actionId d.2) := by
  unfold destroy
  rw [if_neg (by simp [hu])]

theorem destroy_of_destroyed {u : SimState} (hu : u.destroyed = true) :
    destroy u = u := by
  unfold destroy
  rw [if_pos hu]

theorem destroy_destroyed (u : SimState) : (destroy u).destroyed = true := by
  unfold destroy
  split
  · rename_i hu; exact hu
  · rfl

/-- Claim C7: after `ScheduleDestroy(cbA)` then `ScheduleDestroy(cbB)` and
a completed `Run()` (any fuel, regardless of remaining virtual time), the
first `Destroy()` invokes cbA then cbB in registration order, exactly once
each (the cleanup log becomes exactly [a, b]); and `Destroy()` is
idempotent — a second call on any state invokes nothing further and
changes nothing. -/
theorem destroy_cleanup_order_idem (s : SimState) (a b : Nat) (fuel : Nat)
    (hnd : s.destroyed = false) (hdq : s.destroyQueue = [])
    (hdl : s.destroyLog = []) :
    (destroy (run fuel (scheduleDestroy (.mark b)
        (scheduleDestroy (.mark a) s).2).2)).destroyLog = [a, b]
    ∧ destroy (destroy (run fuel (scheduleDestroy (.mark b)
        (scheduleDestroy (.mark a) s).2).2))
      = destroy (run fuel (scheduleDestroy (.mark b)
        (scheduleDestroy (.mark a) s).2).2)
    ∧ (∀ u : SimState, destroy (destroy u) = destroy u) := by
  have hidem : ∀ u : SimState, destroy (destroy u) = destroy u :=
    fun u => destroy_of_destroyed (destroy_destroyed u)
  obtain ⟨q1, l1, d1⟩ := scheduleDestroy_props (.mark a) s hnd
  obtain ⟨q2, l2, d2⟩ := scheduleDestroy_props (.mark b) _ d1
  obtain ⟨qr, lr, dr⟩ := run_frame fuel
    (scheduleDestroy (.mark b) (scheduleDestroy (.mark a) s).2).2
  refine ⟨?_, hidem _, hidem⟩
  rw [destroy_log _ (dr.trans d2), lr, l2, l1, hdl, qr, q2, q1, hdq]
  simp [actionId]

/-- Witness for claim C7: Scenario D on the fresh simulator. -/
theorem destroy_cleanup_order_idem_wit :
    (destroy (run 0 (scheduleDestroy (.mark 2)
        (scheduleDestroy (.mark 1) initState).2).2)).destroyLog = [1, 2] :=
  (destroy_cleanup_order_idem initState 1 2 0
    (by decide) (by decide) (by decide)).1

end NS3
